import Mathlib

/-!
Shallow embedding of the rust-gzip decompressor (src/: cvec.rs, gz_reader.rs,
crc32.rs, header.rs, huffman.rs, inflate.rs, gz.rs) and proofs about the
spec claims.

Modelling conventions:
- bytes are `Nat` values (< 256 in every reachable state);
- machine integers are `Nat` with explicit wraparound (`% 2^32`, `% 2^64`)
  exactly where the original u32/usize arithmetic can wrap (the crate was
  built with pre-1.0 rustc where integer overflow wraps silently);
- fallible Rust code returning `Option` is modelled with `RRes`: `.ok` is
  `Some`, `.err` is `None`, and `.panic` models a Rust panic (failed
  `assert!`/`unwrap`/array index out of bounds);
- the heap-allocating `CVec<u8>` buffer is a `List Nat`; allocation is
  modelled as always succeeding (allocation policy is out of scope);
- iterators over buffers are the remaining `List Nat` (plus an explicit
  index where the code observes `Iter::index`, namely header parsing).
-/

/-- Three-valued result of running a piece of Rust code: normal value,
`None`-style failure, or panic (assertion failure / out-of-bounds index). -/
inductive RRes (α : Type) where
  | ok (val : α)
  | err
  | panic
deriving DecidableEq, Repr

def RRes.bind {α β : Type} : RRes α → (α → RRes β) → RRes β
  | .ok a, f => f a
  | .err, _ => .err
  | .panic, _ => .panic

def RRes.map {α β : Type} (f : α → β) : RRes α → RRes β
  | .ok a => .ok (f a)
  | .err => .err
  | .panic => .panic

/-- Modulus of `u32` arithmetic. -/
def U32 : Nat := 2 ^ 32

/-- Modulus of `usize` arithmetic (the crate targets a 64-bit machine). -/
def USIZE : Nat := 2 ^ 64

/-- Wrapping `u32` subtraction `a - b` (pre-1.0 rustc wraps on underflow). -/
def u32WrapSub (a b : Nat) : Nat := (a + (U32 - b % U32)) % U32

/-- Wrapping `usize` subtraction `a - b`. -/
def usizeWrapSub (a b : Nat) : Nat := (a + (USIZE - b % USIZE)) % USIZE

/-! ## gz_reader.rs : GzBitReader -/

/-- State of `GzBitReader`: the remaining byte iterator, the current byte
`buf`, and the one-hot `mask` (a `u8`, so it becomes `0` after eight
shifts). -/
structure GzBitReader where
  bytes : List Nat
  buf : Nat
  mask : Nat
deriving DecidableEq, Repr

/-- GzBitReader::new — eagerly pulls the first byte from the iterator. -/
def GzBitReader.new (iter : List Nat) : Option GzBitReader :=
  match iter with
  | [] => none
  | starting_buf :: rest => some ⟨rest, starting_buf, 0x01⟩

/-- GzBitReader::next_bit — reload `buf` when the mask has shifted out,
then emit `(buf & mask) > 0` and double the mask (u8, wraps to 0). -/
def next_bit (s : GzBitReader) : Option (Nat × GzBitReader) :=
  let load : Option GzBitReader :=
    if s.mask = 0 then
      match s.bytes with
      | [] => none
      | b :: rest => some ⟨rest, b, 0x01⟩
    else some s
  match load with
  | none => none
  | some t =>
    some ((if t.buf &&& t.mask > 0 then 1 else 0), ⟨t.bytes, t.buf, (t.mask <<< 1) % 256⟩)

/-- Loop body of GzBitReader::read_bits: `for i in 0..count { value |= bit << i }`
with `value : u32`. -/
def read_bits_go : Nat → Nat → Nat → GzBitReader → Option (Nat × GzBitReader)
  | 0, _, value, s => some (value, s)
  | count + 1, i, value, s =>
    match next_bit s with
    | none => none
    | some (bit, s2) => read_bits_go count (i + 1) (value ||| (bit <<< i) % U32) s2

/-- GzBitReader::read_bits — least-significant-bit-first assembly. -/
def read_bits (count : Nat) (s : GzBitReader) : Option (Nat × GzBitReader) :=
  read_bits_go count 0 0 s

/-- Loop body of GzBitReader::read_bits_rev: `value <<= 1; value |= bit`. -/
def read_bits_rev_go : Nat → Nat → GzBitReader → Option (Nat × GzBitReader)
  | 0, value, s => some (value, s)
  | count + 1, value, s =>
    match next_bit s with
    | none => none
    | some (bit, s2) => read_bits_rev_go count (((value <<< 1) % U32) ||| bit) s2

/-- GzBitReader::read_bits_rev — most-significant-bit-first assembly. -/
def read_bits_rev (count : Nat) (s : GzBitReader) : Option (Nat × GzBitReader) :=
  read_bits_rev_go count 0 s

/-! ## crc32.rs -/

def IEEE : Nat := 0xedb88320

/-- One step of the table-entry generator: `v = if v & 1 != 0 { IEEE ^ (v >> 1) } else { v >> 1 }`. -/
def crc32_entry_step (v : Nat) : Nat :=
  if v &&& 1 ≠ 0 then IEEE ^^^ (v >>> 1) else v >>> 1

/-- The `for _ in 0..8` loop of Crc32::new. -/
def crc32_entry_iter : Nat → Nat → Nat
  | 0, v => v
  | n + 1, v => crc32_entry_iter n (crc32_entry_step v)

/-- Entry `i` of the 256-entry CRC table built by Crc32::new. -/
def crc32_table_entry (i : Nat) : Nat := crc32_entry_iter 8 i

/-- The CRC lookup table of Crc32::new. -/
def crc32_table : List Nat := (List.range 256).map crc32_table_entry

/-- One byte step of Crc32::sum. -/
def crc32_update (value i : Nat) : Nat :=
  (crc32_table.getD ((value ^^^ i) &&& 0xFF) 0) ^^^ (value >>> 8)

/-- crc32::sum — fold over the buffer starting from 0xFFFFFFFF, final xor. -/
def crc32_sum (buf : List Nat) : Nat :=
  (buf.foldl crc32_update 0xffffffff) ^^^ 0xffffffff

/-! ## cvec.rs : the pieces of CVec<u8> the decoder uses -/

/-- Loop of CVec::copy_back_pointer: read `buf[back_ptr]` (the `Index` impl
asserts `index < len`, so an out-of-range read is a panic), push the byte,
advance `back_ptr`. -/
def copy_back_aux : List Nat → Nat → Nat → RRes (List Nat)
  | buf, _, 0 => .ok buf
  | buf, back_ptr, l + 1 =>
    match buf[back_ptr]? with
    | none => .panic
    | some c => copy_back_aux (buf ++ [c]) (back_ptr + 1) l

/-- CVec::copy_back_pointer — `back_ptr = self.len - distance - 1` is usize
arithmetic, so it wraps when `distance + 1 > len` (and the subsequent index
assertion then panics, unless `length = 0`). -/
def copy_back_pointer (buf : List Nat) (distance length : Nat) : RRes (List Nat) :=
  copy_back_aux buf (usizeWrapSub (usizeWrapSub buf.length distance) 1) length

/-- CVec::get_wide::<u32> — four bytes read little-endian at `index`
(`ptr::read` of a `u32` on a little-endian machine), `None` when fewer than
four bytes remain. -/
def get_wide_u32 (buf : List Nat) (index : Nat) : Option Nat :=
  if index + 4 ≤ buf.length then
    some (buf.getD index 0 ||| (buf.getD (index + 1) 0 <<< 8) |||
          (buf.getD (index + 2) 0 <<< 16) ||| (buf.getD (index + 3) 0 <<< 24))
  else none

/-! ## huffman.rs -/

/-- HuffmanRange { end, bit_length } (`end` is a Lean keyword, renamed `end_`). -/
structure HuffmanRange where
  end_ : Nat
  bit_length : Nat
deriving DecidableEq, Repr

/-- TreeNode { len, bits, label }. -/
structure TreeNode where
  len : Nat
  bits : Nat
  label : Nat
deriving DecidableEq, Repr

/-- HuffmanNode: interior node with two optional children, or leaf. -/
inductive HuffmanNode where
  | node (left right : Option HuffmanNode)
  | leaf (v : Nat)

/-- huffman::get_bit — bit `index` of `input`. -/
def get_bit (input index : Nat) : Nat :=
  if input &&& (1 <<< index) > 0 then 1 else 0

/-- Recursion core of huffman::make_new_tree, counting the `isize` argument
as the natural number `(len + 1).toNat`: the source's `len < 0` base case is
`0` here, and a positive count `k + 1` stands for `len = k`, so the bit
consulted is `get_bit bits k` and the recursive call gets `len - 1`. -/
def make_new_tree_n (bits : Nat) : Nat → Nat → HuffmanNode
  | 0, value => .leaf value
  | k + 1, value =>
    match get_bit bits k with
    | 0 => .node (some (make_new_tree_n bits k value)) none
    | _ => .node none (some (make_new_tree_n bits k value))

/-- huffman::make_new_tree — fresh single-path subtree for the remaining
`len + 1` code bits; `len` is an `isize` that counts down below zero. -/
def make_new_tree (bits : Nat) (len : Int) (value : Nat) : HuffmanNode :=
  make_new_tree_n bits (len + 1).toNat value

/-- huffman::make_tree (with make_tree_side inlined): descend the existing
tree along the code bits, growing fresh branches; hitting a leaf mid-way is
the source's `panic!`. The `len as usize` cast wraps for negative `len`. -/
def make_tree (tree : HuffmanNode) (bits : Nat) (len : Int) (label : Nat) : RRes HuffmanNode :=
  match tree with
  | .leaf _ => .panic
  | .node l r =>
    match get_bit bits (len.emod (2 ^ 64 : Int)).toNat with
    | 0 =>
      match l with
      | none => .ok (.node (some (make_new_tree bits (len - 1) label)) r)
      | some t => (make_tree t bits (len - 1) label).map (fun t2 => .node (some t2) r)
    | _ =>
      match r with
      | none => .ok (.node l (some (make_new_tree bits (len - 1) label)))
      | some t => (make_tree t bits (len - 1) label).map (fun t2 => .node l (some t2))

/-- Fold of huffman::build_tree over the code table. `(t_node.len - 1) as isize`
is computed in usize first, so `len = 0` becomes `-1` after the cast —
the same value as `(t.len : Int) - 1`. -/
def build_tree_go : HuffmanNode → List TreeNode → RRes HuffmanNode
  | root, [] => .ok root
  | root, t :: rest =>
    match make_tree root t.bits ((t.len : Int) - 1) t.label with
    | .ok root2 => build_tree_go root2 rest
    | .err => .err
    | .panic => .panic

/-- huffman::build_tree — start from `Node(None, None)` and insert every
table entry. -/
def build_tree (code_table : List TreeNode) : RRes HuffmanNode :=
  build_tree_go (.node none none) code_table

/-- `*bl_count.get_mut(idx).unwrap() += add` — panics when out of range. -/
def bl_add (bl : List Nat) (idx add : Nat) : RRes (List Nat) :=
  match bl[idx]? with
  | none => .panic
  | some v => .ok (bl.set idx (v + add))

/-- Loop of huffman::count_bitlengths over the ranges after the first:
each range with positive bit length contributes `end - old_end` (u32
subtraction, wrapping) symbols. -/
def count_bitlengths_go (bl : List Nat) (old_end : Nat) : List HuffmanRange → RRes (List Nat)
  | [] => .ok bl
  | r :: rest =>
    if r.bit_length > 0 then
      (bl_add bl (r.bit_length - 1) (u32WrapSub r.end_ old_end)).bind fun bl2 =>
        count_bitlengths_go bl2 r.end_ rest
    else count_bitlengths_go bl r.end_ rest

/-- huffman::count_bitlengths — vector of `max_bit_length` counters indexed
by `bit_length - 1`; the first range contributes `end + 1` symbols; an empty
range list panics on `range_iter.next().unwrap()`. -/
def count_bitlengths (ranges : List HuffmanRange) (max_bit_length : Nat) : RRes (List Nat) :=
  match ranges with
  | [] => .panic
  | first :: rest =>
    let bl0 : List Nat := List.replicate max_bit_length 0
    if first.bit_length > 0 then
      (bl_add bl0 (first.bit_length - 1) (first.end_ + 1)).bind fun bl1 =>
        count_bitlengths_go bl1 first.end_ rest
    else count_bitlengths_go bl0 first.end_ rest

/-- huffman::compute_first_codes — `code = (code + bl_count[bits-1]) << 1`
(u32, wrapping), entries with zero count are reported as 0. -/
def compute_first_codes (bl_count : List Nat) : List Nat :=
  ((List.range bl_count.length).foldl
    (fun acc bits =>
      let code2 := if bits > 0 then ((acc.1 + bl_count.getD (bits - 1) 0) <<< 1) % U32 else acc.1
      (code2, acc.2 ++ [if bl_count.getD bits 0 > 0 then code2 else 0]))
    ((0 : Nat), ([] : List Nat))).2

/-- Loop of huffman::compute_code_table: for each symbol `n` advance
`active_range` when `n` passes the current range's end, emit a TreeNode for
positive bit lengths and bump `next_code[bit_length - 1]`. Vec indexing
panics out of range. -/
def cct_go (next_code : List Nat) (ranges : List HuffmanRange) (active_range n : Nat)
    (ret : List TreeNode) : Nat → RRes (List TreeNode)
  | 0 => .ok ret
  | k + 1 =>
    match ranges[active_range]? with
    | none => .panic
    | some r0 =>
      let active2 := if n > r0.end_ then active_range + 1 else active_range
      match ranges[active2]? with
      | none => .panic
      | some r =>
        let bit_length := r.bit_length
        if bit_length > 0 then
          match next_code[bit_length - 1]? with
          | none => .panic
          | some c =>
            cct_go (next_code.set (bit_length - 1) (c + 1)) ranges active2 (n + 1)
              (ret ++ [⟨bit_length, c, n⟩]) k
        else cct_go next_code ranges active2 (n + 1) ret k

/-- huffman::compute_code_table — iterate symbols `0 ..= num_entries` where
`num_entries = ranges.last().end` (unwrap panics on an empty slice). -/
def compute_code_table (next_code : List Nat) (ranges : List HuffmanRange) : RRes (List TreeNode) :=
  match ranges[ranges.length - 1]? with
  | none => .panic
  | some last => cct_go next_code ranges 0 0 [] (last.end_ + 1)

/-- huffman::build_huffman_tree — `max` of the bit lengths (`None` on an
empty list propagates as failure), then count, first codes, table, tree. -/
def build_huffman_tree (ranges : List HuffmanRange) : RRes HuffmanNode :=
  match (ranges.map (fun r => r.bit_length)).max? with
  | none => .err
  | some max_bit_length =>
    (count_bitlengths ranges max_bit_length).bind fun bl_count =>
    (compute_code_table (compute_first_codes bl_count) ranges).bind fun table =>
    build_tree table

/-- HuffmanNode::read — walk the tree one bit at a time; an exhausted bit
stream or a missing child is a `None`-failure (the state reflects the bits
already consumed, which the caller's `while let` observes); a bit other
than 0/1 is the source's `panic!` (unreachable). -/
def HuffmanNode.read (t : HuffmanNode) (s : GzBitReader) : RRes Nat × GzBitReader :=
  match t with
  | .leaf v => (.ok v, s)
  | .node l r =>
    match next_bit s with
    | none => (.err, s)
    | some (bit, s1) =>
      match bit with
      | 0 =>
        match l with
        | none => (.err, s1)
        | some t2 => t2.read s1
      | 1 =>
        match r with
        | none => (.err, s1)
        | some t2 => t2.read s1
      | _ => (.panic, s1)

/-! ## inflate.rs -/

def CODE_LENGTH_OFFSETS : List Nat :=
  [16, 17, 18, 0, 8, 7, 9, 6, 10, 5, 11, 4, 12, 3, 13, 2, 14, 1, 15]

def EXTRA_LENGTH_ADDEND : List Nat :=
  [11, 13, 15, 17, 19, 23, 27, 31, 35, 43, 51, 59, 67, 83, 99, 115, 131, 163, 195, 227]

def EXTRA_DIST_ADDEND : List Nat :=
  [4, 6, 8, 12, 16, 24, 32, 48, 64, 96, 128, 192, 256, 384, 512, 768, 1024, 1536, 2048,
   3072, 4096, 6144, 8192, 12288, 16384, 24576]

def FIXED_TREE_RANGES : List HuffmanRange :=
  [⟨143, 8⟩, ⟨255, 9⟩, ⟨279, 7⟩, ⟨287, 8⟩]

/-- Length computation of the symbol loop (inflate.rs lines 155–162):
`code - 254` for codes below 265 (u32, wrapping); codes 265–284 read
`(code - 261) / 4` extra bits and add `EXTRA_LENGTH_ADDEND[(code - 266) + 1]`
(the index is u32 arithmetic: at `code = 265` the subtraction wraps and the
`+ 1` wraps back to index 0); code 285 yields 258. -/
def decode_length (code : Nat) (s : GzBitReader) : RRes (Nat × GzBitReader) :=
  if code < 265 then .ok (u32WrapSub code 254, s)
  else if code < 285 then
    match read_bits ((code - 261) / 4) s with
    | none => .err
    | some (extra_bits, s2) =>
      match EXTRA_LENGTH_ADDEND[(u32WrapSub code 266 + 1) % U32]? with
      | none => .panic
      | some addend => .ok (extra_bits + addend, s2)
  else .ok (258, s)

/-- Distance-symbol read of the symbol loop (inflate.rs lines 165–172):
a hard-coded 5-bit MSB-first read for the fixed tree, or one symbol from the
distance tree. -/
def read_dist_code (distances_root : Option HuffmanNode) (s : GzBitReader) :
    RRes (Nat × GzBitReader) :=
  match distances_root with
  | none =>
    match read_bits_rev 5 s with
    | none => .err
    | some (v, s2) => .ok (v, s2)
  | some distance_tree =>
    match distance_tree.read s with
    | (.ok v, s2) => .ok (v, s2)
    | (.err, _) => .err
    | (.panic, _) => .panic

/-- Distance computation of the symbol loop (inflate.rs lines 174–178):
symbols above 3 read `(dist - 2) / 2` extra bits and add
`EXTRA_DIST_ADDEND[dist - 4]` (array indexing panics for `dist ≥ 30`);
symbols 0–3 are passed through unchanged. -/
def decode_distance (dist : Nat) (s : GzBitReader) : RRes (Nat × GzBitReader) :=
  if dist > 3 then
    match read_bits ((dist - 2) / 2) s with
    | none => .err
    | some (extra_dist, s2) =>
      match EXTRA_DIST_ADDEND[dist - 4]? with
      | none => .panic
      | some addend => .ok (extra_dist + addend, s2)
  else .ok (dist, s)

/-- inflate::inflate_huffman_codes — the symbol loop. A failing tree read
exits the `while let` loop and the function reports success with the bits
consumed so far; symbols ≥ 286 fail; literals are pushed; 256 stops;
length/distance symbols expand a back-reference via copy_back_pointer.
`fuel` bounds the iteration count (every iteration consumes at least one
bit, so any fuel above the remaining bit count is enough). -/
def inflate_huffman_codes :
    Nat → HuffmanNode → Option HuffmanNode → GzBitReader → List Nat →
    RRes (GzBitReader × List Nat)
  | 0, _, _, _, _ => .err
  | fuel + 1, literals_root, distances_root, s, out =>
    match literals_root.read s with
    | (.err, s1) => .ok (s1, out)
    | (.panic, _) => .panic
    | (.ok code, s1) =>
      if code ≥ 286 then .err
      else if code < 256 then
        inflate_huffman_codes fuel literals_root distances_root s1 (out ++ [code])
      else if code = 256 then .ok (s1, out)
      else
        (decode_length code s1).bind fun ls =>
        (read_dist_code distances_root ls.2).bind fun ds =>
        (decode_distance ds.1 ds.2).bind fun dd =>
        (copy_back_pointer out dd.1 ls.1).bind fun out2 =>
        inflate_huffman_codes fuel literals_root distances_root dd.2 out2

/-- The `for i in 0..(hclen + 4)` loop of inflate::build_code_length_tree:
3-bit code lengths stored at the positions given by CODE_LENGTH_OFFSETS. -/
def bclt_read (s : GzBitReader) (code_lengths : List Nat) (i : Nat) :
    Nat → RRes (List Nat × GzBitReader)
  | 0 => .ok (code_lengths, s)
  | k + 1 =>
    match read_bits 3 s with
    | none => .err
    | some (v, s2) =>
      bclt_read s2 (code_lengths.set (CODE_LENGTH_OFFSETS.getD i 0) v) (i + 1) k

/-- The range-building loop used on code-length arrays (inflate.rs, three
occurrences): for `i` in a half-open interval, push the previous range when
the length changes, then overwrite `range` with `(i - offset, a[i])`.
Returns the accumulated ranges and the final `range` value (which the
source pushes afterwards, and reuses across the literals/distances loops).
Vec indexing `a[i]` panics out of range. -/
def ranges_loop_go (a : List Nat) (start offset : Nat) :
    Nat → HuffmanRange → List HuffmanRange → Nat → RRes (List HuffmanRange × HuffmanRange)
  | _, range, acc, 0 => .ok (acc, range)
  | i, range, acc, k + 1 =>
    match a[i]? with
    | none => .panic
    | some ai =>
      let acc2 := if i > start ∧ ai ≠ a.getD (i - 1) 0 then acc ++ [range] else acc
      ranges_loop_go a start offset (i + 1) ⟨i - offset, ai⟩ acc2 k

/-- inflate::build_code_length_tree — read `hclen + 4` code lengths, turn
the 19-entry array into ranges, build the tree. -/
def build_code_length_tree (s : GzBitReader) (hclen : Nat) : RRes (HuffmanNode × GzBitReader) :=
  (bclt_read s (List.replicate 19 0) 0 (hclen + 4)).bind fun cls =>
  (ranges_loop_go cls.1 0 0 0 ⟨0, 0⟩ [] 19).bind fun rr =>
  (build_huffman_tree (rr.1 ++ [rr.2])).map fun t => (t, cls.2)

/-- The inner `while repeat_length > 0` loop of inflate::read_huffman_tree:
code 16 repeats `alphabet[i - 1]` (fails when absent), codes 17/18 push
zeros; `i` advances with each push. -/
def rht_repeat_go (code : Nat) : List Nat → Nat → Nat → RRes (List Nat × Nat)
  | alphabet, i, 0 => .ok (alphabet, i)
  | alphabet, i, rl + 1 =>
    if code = 16 then
      match alphabet[i - 1]? with
      | none => .err
      | some prev => rht_repeat_go code (alphabet ++ [prev]) (i + 1) rl
    else rht_repeat_go code (alphabet ++ [0]) (i + 1) rl

/-- The `while i < (hlit + hdist + 258)` alphabet-reading loop of
inflate::read_huffman_tree. A code above 18 is the source's `panic!`
(unreachable: the code-length tree only stores symbols 0–18). `fuel` bounds
the iterations; each iteration increases `i` by at least one. -/
def rht_alphabet_go (tree : HuffmanNode) (target : Nat) :
    GzBitReader → List Nat → Nat → Nat → RRes (List Nat × GzBitReader)
  | _, _, _, 0 => .err
  | s, alphabet, i, fuel + 1 =>
    if i < target then
      match tree.read s with
      | (.err, _) => .err
      | (.panic, _) => .panic
      | (.ok code, s2) =>
        if code > 15 then
          (if code = 16 then
            match read_bits 2 s2 with
            | none => .err
            | some (v, s3) => .ok (v + 3, s3)
          else if code = 17 then
            match read_bits 3 s2 with
            | none => .err
            | some (v, s3) => .ok (v + 3, s3)
          else if code = 18 then
            match read_bits 7 s2 with
            | none => .err
            | some (v, s3) => .ok (v + 11, s3)
          else (.panic : RRes (Nat × GzBitReader))).bind fun rls =>
          (rht_repeat_go code alphabet i rls.1).bind fun ai =>
          rht_alphabet_go tree target rls.2 ai.1 ai.2 fuel
        else rht_alphabet_go tree target s2 (alphabet ++ [code]) (i + 1) fuel
    else .ok (alphabet, s)

/-- inflate::read_huffman_tree — HLIT/HDIST/HCLEN, the code-length tree,
the combined alphabet, then the literals tree and the distances tree. The
`range` value left over from the literals loop seeds the distances loop,
exactly as in the source. -/
def read_huffman_tree (s : GzBitReader) : RRes ((HuffmanNode × HuffmanNode) × GzBitReader) :=
  match read_bits 5 s with
  | none => .err
  | some (hlit, s1) =>
  match read_bits 5 s1 with
  | none => .err
  | some (hdist, s2) =>
  match read_bits 4 s2 with
  | none => .err
  | some (hclen, s3) =>
  (build_code_length_tree s3 hclen).bind fun ct =>
  (rht_alphabet_go ct.1 (hlit + hdist + 258) ct.2 [] 0 (hlit + hdist + 259)).bind fun aw =>
  (ranges_loop_go aw.1 0 0 0 ⟨0, 0⟩ [] (hlit + 257)).bind fun lr =>
  let dist_start := hlit + 257
  (ranges_loop_go aw.1 dist_start dist_start dist_start lr.2 [] (hdist + 1)).bind fun dr =>
  (build_huffman_tree (lr.1 ++ [lr.2])).bind fun literals_root =>
  (build_huffman_tree (dr.1 ++ [dr.2])).map fun distances_root =>
  ((literals_root, distances_root), aw.2)

/-- inflate::build_fixed_huffman_tree. -/
def build_fixed_huffman_tree : RRes HuffmanNode :=
  build_huffman_tree FIXED_TREE_RANGES

/-- The `while last_block == 0` block loop of inflate::inflate. BTYPE 00
(stored) and the reserved BTYPE 11 both fail. `fuel` bounds the number of
blocks; each block consumes at least three bits. -/
def inflate_go : Nat → HuffmanNode → GzBitReader → List Nat → RRes (List Nat)
  | 0, _, _, _ => .err
  | fuel + 1, fixed_tree, s, out =>
    match next_bit s with
    | none => .err
    | some (last_block, s1) =>
      match read_bits 2 s1 with
      | none => .err
      | some (block_format, s2) =>
        match block_format with
        | 0 => .err
        | 1 =>
          (inflate_huffman_codes (8 * s2.bytes.length + 16) fixed_tree none s2 out).bind
            fun so =>
              if last_block = 0 then inflate_go fuel fixed_tree so.1 so.2 else .ok so.2
        | 2 =>
          (read_huffman_tree s2).bind fun ts =>
          (inflate_huffman_codes (8 * ts.2.bytes.length + 16) ts.1.1 (some ts.1.2) ts.2 out).bind
            fun so =>
              if last_block = 0 then inflate_go fuel fixed_tree so.1 so.2 else .ok so.2
        | _ => .err

/-- inflate::inflate — build the fixed tree once, then run the block loop. -/
def inflate (s : GzBitReader) (out : List Nat) : RRes (List Nat) :=
  build_fixed_huffman_tree.bind fun fixed_tree =>
    inflate_go (8 * s.bytes.length + 16) fixed_tree s out

/-! ## header.rs -/

/-- The five decoded flag bits (struct `Flags`). -/
structure Flags where
  FTEXT : Bool
  FHCRC : Bool
  FNAME : Bool
  FEXTRA : Bool
  FCOMMENT : Bool
deriving DecidableEq, Repr

/-- Flags::new — bits 0/1/2/3/4 are FTEXT/FHCRC/FEXTRA/FNAME/FCOMMENT. -/
def Flags.ofByte (flags : Nat) : Flags :=
  ⟨flags &&& 1 ≠ 0, flags &&& 2 ≠ 0, flags &&& 8 ≠ 0, flags &&& 4 ≠ 0, flags &&& 16 ≠ 0⟩

/-- cvec::Iter as used by the header parser: the remaining bytes plus the
running index (`Iter::index` keeps incrementing even on failed reads, and
`header_len` is read from it). -/
structure HIter where
  rest : List Nat
  idx : Nat
deriving DecidableEq, Repr

/-- Iter::next — the index advances even when the iterator is exhausted. -/
def HIter.next (it : HIter) : Option Nat × HIter :=
  match it.rest with
  | [] => (none, ⟨[], it.idx + 1⟩)
  | b :: t => (some b, ⟨t, it.idx + 1⟩)

/-- Iter::next_wide::<u32> — advances the index by four; on success yields
the little-endian u32; on failure (fewer than four bytes left) the index
has moved past the end, so the remaining bytes are unreachable. -/
def HIter.next_wide_u32 (it : HIter) : Option Nat × HIter :=
  match it.rest with
  | b0 :: b1 :: b2 :: b3 :: t =>
    (some (b0 ||| (b1 <<< 8) ||| (b2 <<< 16) ||| (b3 <<< 24)), ⟨t, it.idx + 4⟩)
  | _ => (none, ⟨[], it.idx + 4⟩)

/-- Continuation byte test for UTF-8 validation. -/
def utf8_cont (b : Nat) : Bool := decide (0x80 ≤ b ∧ b ≤ 0xBF)

/-- Validity of a byte sequence as UTF-8 (the behaviour of the standard
library's String::from_utf8 used by the header parser; not repository
code). -/
def utf8_valid : List Nat → Bool
  | [] => true
  | b :: rest =>
    if b ≤ 0x7F then utf8_valid rest
    else if 0xC2 ≤ b ∧ b ≤ 0xDF then
      match rest with
      | c1 :: r => utf8_cont c1 && utf8_valid r
      | [] => false
    else if b = 0xE0 ∨ (0xE1 ≤ b ∧ b ≤ 0xEF) then
      match rest with
      | c1 :: c2 :: r =>
        (if b = 0xE0 then decide (0xA0 ≤ c1 ∧ c1 ≤ 0xBF)
         else if b = 0xED then decide (0x80 ≤ c1 ∧ c1 ≤ 0x9F)
         else utf8_cont c1) && utf8_cont c2 && utf8_valid r
      | _ => false
    else if 0xF0 ≤ b ∧ b ≤ 0xF4 then
      match rest with
      | c1 :: c2 :: c3 :: r =>
        (if b = 0xF0 then decide (0x90 ≤ c1 ∧ c1 ≤ 0xBF)
         else if b = 0xF4 then decide (0x80 ≤ c1 ∧ c1 ≤ 0x8F)
         else utf8_cont c1) && utf8_cont c2 && utf8_cont c3 && utf8_valid r
      | _ => false
    else false

/-- The `for _ in 0..len` payload loop of header::get_extra. -/
def read_n_bytes : Nat → HIter → Option (List Nat) × HIter
  | 0, it => (some [], it)
  | n + 1, it =>
    match it.next with
    | (none, it1) => (none, it1)
    | (some b, it1) =>
      match read_n_bytes n it1 with
      | (none, it2) => (none, it2)
      | (some bs, it2) => (some (b :: bs), it2)

/-- header::get_extra — two id bytes (checked as UTF-8), a big-endian
16-bit length, then the payload; any failure (including invalid UTF-8)
yields `none` for the field while keeping the bytes consumed so far. -/
def get_extra (flags : Flags) (it : HIter) : Option (List Nat × List Nat) × HIter :=
  if flags.FEXTRA then
    match it.next with
    | (none, it1) => (none, it1)
    | (some b1, it1) =>
      match it1.next with
      | (none, it2) => (none, it2)
      | (some b2, it2) =>
        if utf8_valid [b1, b2] then
          match it2.next with
          | (none, it3) => (none, it3)
          | (some l1, it3) =>
            match it3.next with
            | (none, it4) => (none, it4)
            | (some l2, it4) =>
              match read_n_bytes ((l1 <<< 8) + l2) it4 with
              | (none, it5) => (none, it5)
              | (some data, it5) => (some ([b1, b2], data), it5)
        else (none, it2)
  else (none, it)

/-- The `while let` loop of header::get_string: consume bytes up to and
including a NUL (or to the end of the stream, which is not an error), then
UTF-8-validate what was collected. -/
def get_string_go : List Nat → Nat → List Nat → Option (List Nat) × HIter
  | [], idx, acc => (if utf8_valid acc then some acc else none, ⟨[], idx + 1⟩)
  | b :: t, idx, acc =>
    if b = 0 then (if utf8_valid acc then some acc else none, ⟨t, idx + 1⟩)
    else get_string_go t (idx + 1) (acc ++ [b])

/-- header::get_string. -/
def get_string (flag : Bool) (it : HIter) : Option (List Nat) × HIter :=
  if flag then get_string_go it.rest it.idx [] else (none, it)

/-- header::get_crc — the optional big-endian header CRC16 (parsed only). -/
def get_crc_field (flags : Flags) (it : HIter) : Option Nat × HIter :=
  if flags.FHCRC then
    match it.next with
    | (none, it1) => (none, it1)
    | (some c1, it1) =>
      match it1.next with
      | (none, it2) => (none, it2)
      | (some c2, it2) => (some ((c1 <<< 8) + c2), it2)
  else (none, it)

/-- The parsed GZHeader record (strings kept as raw byte lists). -/
structure GZHeader where
  header_len : Nat
  compression_method : Nat
  flags : Flags
  mtime : Nat
  extra_flags : Nat
  os : Nat
  extra : Option (List Nat × List Nat)
  fname : Option (List Nat)
  comment : Option (List Nat)
  crc : Option Nat
deriving DecidableEq, Repr

/-- header::parse_header — magic, method 8, flags, MTIME, XFL, OS, then the
optional fields; `header_len` is the iterator index afterwards. -/
def parse_header (buffer : List Nat) : Option GZHeader :=
  let it0 : HIter := ⟨buffer, 0⟩
  match it0.next with
  | (none, _) => none
  | (some m1, it1) =>
  match it1.next with
  | (none, _) => none
  | (some m2, it2) =>
  if m1 = 0x1f ∧ m2 = 0x8b then
    match it2.next with
    | (none, _) => none
    | (some comp_method, it3) =>
    if comp_method ≠ 8 then none
    else
      match it3.next with
      | (none, _) => none
      | (some flag_byte, it4) =>
      let flags := Flags.ofByte flag_byte
      match it4.next_wide_u32 with
      | (none, _) => none
      | (some mtime, it5) =>
      match it5.next with
      | (none, _) => none
      | (some extra_flags, it6) =>
      match it6.next with
      | (none, _) => none
      | (some os, it7) =>
      let er := get_extra flags it7
      let nr := get_string flags.FNAME er.2
      let cr := get_string flags.FCOMMENT nr.2
      let hr := get_crc_field flags cr.2
      some ⟨hr.2.idx, comp_method, flags, mtime, extra_flags, os, er.1, nr.1, cr.1, hr.1⟩
  else none

/-! ## gz.rs -/

def GZIP_MIN_LEN : Nat := 40
def GZIP_FILESIZE_OFFSET : Nat := 4
def GZIP_CRC_OFFSET : Nat := 8
def GZIP_FOOTER_LEN : Nat := 8

/-- gz::get_uncompressed_len — `assert!(buffer.len() > GZIP_MIN_LEN)` (a
panic for length exactly 40), then the little-endian u32 four bytes from
the end (`unwrap` of get_wide). -/
def get_uncompressed_len (buffer : List Nat) : RRes Nat :=
  if buffer.length > GZIP_MIN_LEN then
    match get_wide_u32 buffer (buffer.length - GZIP_FILESIZE_OFFSET) with
    | none => .panic
    | some v => .ok v
  else .panic

/-- gz::get_crc — same assertion, little-endian u32 eight bytes from the end. -/
def get_crc (buffer : List Nat) : RRes Nat :=
  if buffer.length > GZIP_MIN_LEN then
    match get_wide_u32 buffer (buffer.length - GZIP_CRC_OFFSET) with
    | none => .panic
    | some v => .ok v
  else .panic

/-- gz::check_crc. -/
def check_crc (buffer : List Nat) (crc : Nat) : Bool :=
  crc32_sum buffer == crc

/-- gz::decompress_raw — a failed bit-reader construction leaves the output
buffer untouched and reports nothing; a failed inflate clears the output
buffer; neither is surfaced to the caller. -/
def decompress_raw (bytes : List Nat) (out_buf : List Nat) : RRes (List Nat) :=
  match GzBitReader.new bytes with
  | none => .ok out_buf
  | some gz_reader =>
    match inflate gz_reader out_buf with
    | .ok out2 => .ok out2
    | .err => .ok []
    | .panic => .panic

/-- The body of gz::decompress_gz after the initial length check: footer
reads (asserting), header parse, an empty output buffer (allocation with
capacity `out_len` is modelled as succeeding), decompress_raw over
`[header_len, len - 8)`, and the CRC comparison. -/
def decompress_after_check (buffer : List Nat) : RRes (List Nat) :=
  (get_uncompressed_len buffer).bind fun _out_len =>
  (get_crc buffer).bind fun crc =>
  match parse_header buffer with
  | none => .err
  | some header =>
    (decompress_raw ((buffer.take (buffer.length - GZIP_FOOTER_LEN)).drop header.header_len)
        []).bind fun out2 =>
      if check_crc out2 crc then .ok out2 else .err

/-- gz::decompress_gz — reject buffers shorter than GZIP_MIN_LEN = 40, then
run the decode pipeline. -/
def decompress_gz (buffer : List Nat) : RRes (List Nat) :=
  if buffer.length < GZIP_MIN_LEN then .err
  else decompress_after_check buffer

/-! ## Helper lemmas -/

theorem usizeWrapSub_of_le {a b : Nat} (hba : b ≤ a) (ha : a < USIZE) :
    usizeWrapSub a b = a - b := by
  have h64 : USIZE = 18446744073709551616 := by norm_num [USIZE]
  unfold usizeWrapSub
  rw [h64]
  rw [h64] at ha
  omega

theorem u32WrapSub_of_le {a b : Nat} (hba : b ≤ a) (ha : a < U32) :
    u32WrapSub a b = a - b := by
  have h32 : U32 = 4294967296 := by norm_num [U32]
  unfold u32WrapSub
  rw [h32]
  rw [h32] at ha
  omega

theorem or_shiftLeft_distrib (x y i : Nat) : (x ||| y) <<< i = (x <<< i) ||| (y <<< i) := by
  apply Nat.eq_of_testBit_eq
  intro j
  simp [Nat.testBit_shiftLeft, Nat.testBit_or, Bool.and_or_distrib_left]

theorem shiftLeft_shiftLeft_add (x a b : Nat) : (x <<< a) <<< b = x <<< (a + b) := by
  simp [Nat.shiftLeft_eq, Nat.pow_add, Nat.mul_assoc]

/-- The bit produced by next_bit is 0 or 1. -/
theorem next_bit_le_one {s : GzBitReader} {bit : Nat} {s2 : GzBitReader}
    (h : next_bit s = some (bit, s2)) : bit ≤ 1 := by
  unfold next_bit at h
  simp only [] at h
  split at h
  · exact absurd h (by simp)
  · rename_i t heq
    have hb : bit = if t.buf &&& t.mask > 0 then 1 else 0 := by
      injection h with h1
      injection h1 with h2 _
      exact h2.symm
    rw [hb]
    split <;> omega

/-- Reference (mod-free) version of the read_bits loop, used to factor the
proofs below; it agrees with read_bits_go while all bit positions stay
below 32. -/
def read_bits_pure : Nat → Nat → Nat → GzBitReader → Option (Nat × GzBitReader)
  | 0, _, value, s => some (value, s)
  | count + 1, i, value, s =>
    match next_bit s with
    | none => none
    | some (bit, s2) => read_bits_pure count (i + 1) (value ||| bit <<< i) s2

theorem read_bits_go_eq_pure :
    ∀ (count i value : Nat) (s : GzBitReader), i + count ≤ 32 →
      read_bits_go count i value s = read_bits_pure count i value s := by
  intro count
  induction count with
  | zero => intro i value s _; rfl
  | succ n ih =>
    intro i value s hle
    cases hnb : next_bit s with
    | none => simp only [read_bits_go, read_bits_pure, hnb]
    | some p =>
      obtain ⟨bit, s2⟩ := p
      have hb1 : bit ≤ 1 := next_bit_le_one hnb
      have hmod : (bit <<< i) % U32 = bit <<< i := by
        apply Nat.mod_eq_of_lt
        have hle2 : bit <<< i ≤ 1 <<< i := by
          simp only [Nat.shiftLeft_eq]
          exact Nat.mul_le_mul_right _ hb1
        have h1i : (1 : Nat) <<< i < U32 := by
          simp only [Nat.shiftLeft_eq, U32, Nat.one_mul]
          exact Nat.pow_lt_pow_right (by norm_num) (by omega)
        omega
      simp only [read_bits_go, read_bits_pure, hnb, hmod]
      exact ih (i + 1) _ s2 (by omega)

theorem read_bits_pure_bind :
    ∀ (n m i v : Nat) (s : GzBitReader),
      read_bits_pure (n + m) i v s =
        match read_bits_pure n i v s with
        | none => none
        | some p => read_bits_pure m (i + n) p.1 p.2 := by
  intro n
  induction n with
  | zero =>
    intro m i v s
    simp [read_bits_pure]
  | succ n ih =>
    intro m i v s
    have hnm : n + 1 + m = (n + m) + 1 := by omega
    rw [hnm]
    cases hnb : next_bit s with
    | none => simp only [read_bits_pure, hnb]
    | some p =>
      obtain ⟨bit, s2⟩ := p
      simp only [read_bits_pure, hnb]
      rw [ih m (i + 1) (v ||| bit <<< i) s2]
      have harith : i + 1 + n = i + (n + 1) := by omega
      rw [harith]

theorem read_bits_pure_accum :
    ∀ (m i v : Nat) (s : GzBitReader),
      read_bits_pure m i v s =
        match read_bits_pure m i 0 s with
        | none => none
        | some p => some (v ||| p.1, p.2) := by
  intro m
  induction m with
  | zero => intro i v s; simp [read_bits_pure]
  | succ m ih =>
    intro i v s
    cases hnb : next_bit s with
    | none => simp only [read_bits_pure, hnb]
    | some p =>
      obtain ⟨bit, s2⟩ := p
      simp only [read_bits_pure, hnb]
      rw [ih (i + 1) (v ||| bit <<< i) s2, ih (i + 1) (0 ||| bit <<< i) s2]
      cases read_bits_pure m (i + 1) 0 s2 with
      | none => rfl
      | some q => simp [Nat.or_assoc]

theorem read_bits_pure_shift :
    ∀ (m i : Nat) (s : GzBitReader),
      read_bits_pure m i 0 s =
        match read_bits_pure m 0 0 s with
        | none => none
        | some p => some (p.1 <<< i, p.2) := by
  intro m
  induction m with
  | zero => intro i s; simp [read_bits_pure]
  | succ m ih =>
    intro i s
    cases hnb : next_bit s with
    | none => simp only [read_bits_pure, hnb]
    | some p =>
      obtain ⟨bit, s2⟩ := p
      simp only [read_bits_pure, hnb]
      rw [read_bits_pure_accum m (i + 1) (0 ||| bit <<< i) s2,
          read_bits_pure_accum m (0 + 1) (0 ||| bit <<< 0) s2]
      rw [ih 1 s2, ih (i + 1) s2]
      cases read_bits_pure m 0 0 s2 with
      | none => rfl
      | some q =>
        simp only [Nat.zero_or, Nat.shiftLeft_zero, Option.some.injEq, Prod.mk.injEq]
        refine ⟨?_, trivial⟩
        rw [or_shiftLeft_distrib, shiftLeft_shiftLeft_add]
        have h1i : 1 + i = i + 1 := by omega
        rw [h1i]

/-! ## Claim C9 -/

/-- Claim C9: for every bit-stream position and all n, m with n + m ≤ 32,
if read_bits n returns a and the subsequent read_bits m returns b, then
read_bits (n + m) from the same starting position returns `a ||| (b <<< n)`
(LSB-first assembly), and read_bits (n + m) fails exactly when one of the
two consecutive smaller reads fails. -/
theorem read_bits_split (n m : Nat) (h : n + m ≤ 32) (s : GzBitReader) :
    (∀ a s1 b s2, read_bits n s = some (a, s1) → read_bits m s1 = some (b, s2) →
      read_bits (n + m) s = some (a ||| b <<< n, s2)) ∧
    (read_bits (n + m) s = none ↔
      (read_bits n s = none ∨
        ∃ a s1, read_bits n s = some (a, s1) ∧ read_bits m s1 = none)) := by
  have hconv : ∀ (c : Nat) (t : GzBitReader), c ≤ 32 →
      read_bits c t = read_bits_pure c 0 0 t := by
    intro c t hc
    exact read_bits_go_eq_pure c 0 0 t (by omega)
  have hall : read_bits (n + m) s =
      match read_bits_pure n 0 0 s with
      | none => none
      | some p =>
        match read_bits_pure m 0 0 p.2 with
        | none => none
        | some q => some (p.1 ||| q.1 <<< n, q.2) := by
    rw [hconv (n + m) s h, read_bits_pure_bind n m 0 0 s]
    cases read_bits_pure n 0 0 s with
    | none => rfl
    | some p =>
      simp only [Nat.zero_add]
      rw [read_bits_pure_accum m n p.1 p.2, read_bits_pure_shift m n p.2]
      cases read_bits_pure m 0 0 p.2 with
      | none => rfl
      | some q => rfl
  constructor
  · intro a s1 b s2 ha hb
    rw [hconv n s (by omega)] at ha
    rw [hconv m s1 (by omega)] at hb
    rw [hall, ha]
    simp only [hb]
  · rw [hall, hconv n s (by omega)]
    cases hn : read_bits_pure n 0 0 s with
    | none => simp
    | some p =>
      obtain ⟨a, s1⟩ := p
      have hcm := hconv m s1 (by omega)
      cases hm : read_bits_pure m 0 0 s1 with
      | none =>
        simp only [hm, true_iff, Option.some.injEq, Prod.mk.injEq, false_or]
        exact Or.inr ⟨a, s1, ⟨rfl, rfl⟩, hcm.trans hm⟩
      | some q => simp [hcm, hm]

/-- Witness for C9 at n = 1, m = 2 over the byte 0b101: the two partial
reads return 1 and 2, and the combined read returns 1 ||| 2 <<< 1 = 5. -/
theorem read_bits_split_witness :
    read_bits (1 + 2) (⟨[], 5, 1⟩ : GzBitReader) = some (1 ||| 2 <<< 1, ⟨[], 5, 8⟩) :=
  (read_bits_split 1 2 (by omega) ⟨[], 5, 1⟩).1 1 ⟨[], 5, 2⟩ 2 ⟨[], 5, 8⟩
    (by decide) (by decide)

/-! ## Claim C10 -/

/-- Claim C10 counterexample: constructing the reader does consume input —
over an empty region construction fails outright, and over `[7]` it
consumes the byte 7 (the remaining iterator is empty). The claim said
construction consumes nothing and cannot fail. -/
theorem gz_bit_reader_eager_cex :
    GzBitReader.new [] = none ∧ GzBitReader.new [7] = some ⟨[], 7, 1⟩ := by
  constructor <;> rfl

/-- Claim C10 (amended): GzBitReader::new eagerly loads the first byte at
construction time — it consumes exactly one byte of the region and fails
when the region is empty; read_bits 0 is a no-op returning 0 without
advancing the stream. -/
theorem gz_bit_reader_eager_load :
    (GzBitReader.new [] = none) ∧
    (∀ b rest, GzBitReader.new (b :: rest) = some ⟨rest, b, 1⟩) ∧
    (∀ s, read_bits 0 s = some (0, s)) :=
  ⟨rfl, fun _ _ => rfl, fun _ => rfl⟩

/-! ## Claim C3 -/

/-- Characterization of the copy loop when the start pointer is in range:
it succeeds, appends exactly `length` bytes, preserves the prefix, and each
appended position of the final buffer equals the position `ptr + k` of the
final buffer (self-referential copy: reads observe earlier writes). -/
theorem copy_back_aux_spec :
    ∀ (length : Nat) (buf : List Nat) (ptr : Nat), ptr < buf.length →
      ∃ res, copy_back_aux buf ptr length = .ok res ∧
        res.length = buf.length + length ∧
        res.take buf.length = buf ∧
        ∀ k, k < length → res.getD (buf.length + k) 0 = res.getD (ptr + k) 0 := by
  intro length
  induction length with
  | zero =>
    intro buf ptr _
    exact ⟨buf, rfl, by omega, List.take_length buf, fun k hk => absurd hk (by omega)⟩
  | succ l ih =>
    intro buf ptr hptr
    have hget : buf[ptr]? = some buf[ptr] := List.getElem?_eq_getElem hptr
    have hstep : copy_back_aux buf ptr (l + 1) = copy_back_aux (buf ++ [buf[ptr]]) (ptr + 1) l := by
      rw [copy_back_aux, hget]
    obtain ⟨res, heq, hlen, htake, hidx⟩ :=
      ih (buf ++ [buf[ptr]]) (ptr + 1) (by simp; omega)
    refine ⟨res, hstep.trans heq, by simp at hlen; omega, ?_, ?_⟩
    · have h1 : res.take buf.length = (res.take (buf.length + 1)).take buf.length := by
        rw [List.take_take]
        congr 1
        omega
      rw [h1]
      have h2 : (buf ++ [buf[ptr]]).length = buf.length + 1 := by simp
      rw [← h2, htake]
      exact List.take_left buf [buf[ptr]]
    · intro k hk
      match k with
      | 0 =>
        have hres_at : ∀ j, j < buf.length + 1 → res[j]? = (buf ++ [buf[ptr]])[j]? := by
          intro j hj
          have : (res.take (buf.length + 1))[j]? = res[j]? := List.getElem?_take_of_lt hj
          rw [← this]
          rw [show buf.length + 1 = (buf ++ [buf[ptr]]).length by simp]
          rw [htake]
        have hL : res[buf.length]? = some buf[ptr] := by
          rw [hres_at buf.length (by omega)]
          have : buf.length = buf.length + 0 := by omega
          exact List.getElem?_concat_length buf _
        have hR : res[ptr]? = some buf[ptr] := by
          rw [hres_at ptr (by omega), List.getElem?_append_left hptr]
          exact List.getElem?_eq_getElem hptr
        simp only [List.getD_eq_getElem?_getD, Nat.add_zero]
        rw [hL, hR]
      | j + 1 =>
        have := hidx j (by omega)
        have e1 : buf.length + (j + 1) = (buf ++ [buf[ptr]]).length + j := by simp; omega
        have e2 : ptr + (j + 1) = ptr + 1 + j := by omega
        rw [e1, e2]
        exact this

/-- Claim C3 counterexample: with buffer [5, 9], distance 1, length 1 the
claim predicts appending the byte at position len - distance = 1 (the most
recent byte, 9), but copy_back_pointer starts one position earlier and
appends 5. -/
theorem copy_back_pointer_cex :
    copy_back_pointer [5, 9] 1 1 = .ok [5, 9, 5] ∧
    RRes.ok [5, 9, 5] ≠ RRes.ok ([5, 9] ++ [9]) := by
  constructor <;> decide

/-- Claim C3 (amended): for every buffer and every distance with
0 ≤ distance ≤ len - 1 (not 1 ≤ distance ≤ len), copy_back_pointer appends
exactly `length` bytes read starting at position len - distance - 1 (one
earlier than the claim said), each position read after the appends
performed earlier in the same call; in particular distance = 0 (not 1)
appends `length` copies of the most recent byte. -/
theorem copy_back_pointer_semantics (buf : List Nat) (distance length : Nat)
    (hd : distance < buf.length) (hb : buf.length < USIZE) :
    ∃ res, copy_back_pointer buf distance length = .ok res ∧
      res.length = buf.length + length ∧
      res.take buf.length = buf ∧
      ∀ k, k < length →
        res.getD (buf.length + k) 0 = res.getD (buf.length - distance - 1 + k) 0 := by
  have h1 : usizeWrapSub buf.length distance = buf.length - distance :=
    usizeWrapSub_of_le (by omega) hb
  have h2 : usizeWrapSub (buf.length - distance) 1 = buf.length - distance - 1 :=
    usizeWrapSub_of_le (by omega) (by omega)
  have hunf : copy_back_pointer buf distance length =
      copy_back_aux buf (buf.length - distance - 1) length := by
    rw [copy_back_pointer, h1, h2]
  obtain ⟨res, heq, hlen, htake, hidx⟩ :=
    copy_back_aux_spec length buf (buf.length - distance - 1) (by omega)
  exact ⟨res, hunf.trans heq, hlen, htake, hidx⟩

/-- Witness for C3 (amended) at buffer [7], distance 0, length 2: the call
succeeds and appends two copies of the most recent byte. -/
theorem copy_back_pointer_semantics_witness :
    ∃ res, copy_back_pointer [7] 0 2 = .ok res ∧
      res.length = 1 + 2 ∧
      res.take 1 = [7] ∧
      ∀ k, k < 2 → res.getD (1 + k) 0 = res.getD (1 - 0 - 1 + k) 0 :=
  copy_back_pointer_semantics [7] 0 2 (by norm_num) (by norm_num [USIZE])

/-! ## Claim C7 -/

/-- Modelled from the spec: the RFC 1951 base-distance table
[5, 7, 9, 13, ...] that the specification prescribes for distance symbols
4 and above. -/
def RFC_DIST_BASE : List Nat :=
  [5, 7, 9, 13, 17, 25, 33, 49, 65, 97, 129, 193, 257] ++
  [385, 513, 769, 1025, 1537, 2049, 3073, 4097, 6145, 8193, 12289, 16385, 24577]

/-- Modelled from the spec: the RFC 1951 distance decoded from a distance
symbol D and the value of its extra bits — D + 1 for D ≤ 3, otherwise the
base-table entry plus the extra bits. -/
def rfc_distance (D extra : Nat) : Nat :=
  if D ≤ 3 then D + 1 else extra + RFC_DIST_BASE.getD (D - 4) 0

/-- Modelled from the spec: the RFC 1951 back-reference append — copy
`length` bytes starting `distance` bytes before the current end of the
buffer (distance 1-based, reads observing earlier appends); out-of-range
distances are malformed. -/
def rfc_back_reference (buf : List Nat) (distance length : Nat) : RRes (List Nat) :=
  if 1 ≤ distance ∧ distance ≤ buf.length then
    copy_back_aux buf (buf.length - distance) length
  else .err

theorem extra_dist_addend_off_by_one :
    ∀ i, i < 26 → EXTRA_DIST_ADDEND.getD i 0 + 1 = RFC_DIST_BASE.getD i 0 := by decide

/-- Claim C7: the implementation's two off-by-one choices cancel. For any
decoded distance symbol D ≤ 29, if the inflater's distance computation
(decode_distance, using the one-smaller table [4, 6, 8, 12, ...]) produces
the value d, then d + 1 is the RFC 1951 distance for D with the same extra
bits, and the implemented copy (copy_back_pointer, starting one position
earlier at len - d - 1) appends exactly the same bytes as the RFC
back-reference of distance d + 1. -/
theorem backref_off_by_ones_cancel (D : Nat) (hD : D ≤ 29) (s s2 : GzBitReader) (d : Nat)
    (hdd : decode_distance D s = .ok (d, s2)) (buf : List Nat) (L : Nat)
    (hbuf : d + 1 ≤ buf.length) (hb : buf.length < USIZE) :
    (∃ extra, d + 1 = rfc_distance D extra ∧ (D ≤ 3 → extra = 0)) ∧
    copy_back_pointer buf d L = rfc_back_reference buf (d + 1) L := by
  constructor
  · by_cases h3 : D ≤ 3
    · refine ⟨0, ?_, fun _ => rfl⟩
      have : decode_distance D s = .ok (D, s) := by
        rw [decode_distance, if_neg (by omega)]
      rw [this] at hdd
      injection hdd with h1
      injection h1 with h2 _
      rw [← h2, rfc_distance, if_pos h3]
    · have h4 : 4 ≤ D := by omega
      rw [decode_distance, if_pos (by omega)] at hdd
      cases hrb : read_bits ((D - 2) / 2) s with
      | none => rw [hrb] at hdd; exact absurd hdd (by simp)
      | some p =>
        rw [hrb] at hdd
        have hlt : D - 4 < EXTRA_DIST_ADDEND.length := by
          simp only [EXTRA_DIST_ADDEND, List.length]
          omega
        rw [List.getElem?_eq_getElem hlt] at hdd
        injection hdd with h1
        injection h1 with h2 _
        refine ⟨p.1, ?_, fun hc => absurd hc (by omega)⟩
        rw [rfc_distance, if_neg h3, ← h2]
        have htab := extra_dist_addend_off_by_one (D - 4) (by omega)
        rw [List.getD_eq_getElem?_getD, List.getElem?_eq_getElem hlt] at htab
        simp only [Option.getD_some] at htab
        omega
  · have h1 : usizeWrapSub buf.length d = buf.length - d :=
      usizeWrapSub_of_le (by omega) hb
    have h2 : usizeWrapSub (buf.length - d) 1 = buf.length - d - 1 :=
      usizeWrapSub_of_le (by omega) (by omega)
    rw [copy_back_pointer, h1, h2, rfc_back_reference, if_pos ⟨by omega, hbuf⟩]
    congr 1

/-- Witness for C7 at D = 4 with one zero extra bit: decode_distance
produces d = 4, 4 + 1 = 5 is the RFC distance, and both copies agree on a
five-byte buffer. -/
theorem backref_off_by_ones_cancel_witness :
    (∃ extra, 4 + 1 = rfc_distance 4 extra ∧ (4 ≤ 3 → extra = 0)) ∧
    copy_back_pointer [1, 2, 3, 4, 5] 4 3 = rfc_back_reference [1, 2, 3, 4, 5] (4 + 1) 3 :=
  backref_off_by_ones_cancel 4 (by norm_num) ⟨[], 0, 1⟩ ⟨[], 0, 2⟩ 4 (by decide)
    [1, 2, 3, 4, 5] 3 (by norm_num) (by norm_num [USIZE])

/-! ## Claim C4 -/

/-- Claim C4 counterexample: for distance symbol D = 4 with a single zero
extra bit the value passed onward is 4 (the table starts at 4), not the
RFC value 5 that the claim states; and for D = 0 the value passed is 0,
not D + 1 = 1. -/
theorem decode_distance_cex :
    decode_distance 4 ⟨[], 0, 1⟩ = .ok (4, ⟨[], 0, 2⟩) ∧ (4 : Nat) ≠ 5 ∧
    decode_distance 0 ⟨[], 0, 1⟩ = .ok (0, ⟨[], 0, 1⟩) ∧ (0 : Nat) ≠ 0 + 1 := by
  refine ⟨by decide, by decide, by decide, by decide⟩

/-- Claim C4 (amended): for a decoded distance symbol D, the inflater
passes D itself (not D + 1) to the back-reference append when D ≤ 3; for
4 ≤ D ≤ 29 it reads (D - 2) >> 1 extra bits and passes the extra-bits value
plus EXTRA_DIST_ADDEND[D - 4], whose entries are the RFC 1951 bases minus
one; for D ≥ 30 the table access panics. (The RFC distance is obtained
only after copy_back_pointer's extra -1, see C7.) -/
theorem decode_distance_spec (D : Nat) (s : GzBitReader) :
    (D ≤ 3 → decode_distance D s = .ok (D, s)) ∧
    (4 ≤ D → D ≤ 29 → decode_distance D s =
      (match read_bits ((D - 2) / 2) s with
       | none => .err
       | some p => .ok (p.1 + EXTRA_DIST_ADDEND.getD (D - 4) 0, p.2))) ∧
    (∀ i, i < 26 → EXTRA_DIST_ADDEND.getD i 0 + 1 = RFC_DIST_BASE.getD i 0) ∧
    (30 ≤ D → decode_distance D s =
      (match read_bits ((D - 2) / 2) s with
       | none => .err
       | some _ => .panic)) := by
  refine ⟨?_, ?_, extra_dist_addend_off_by_one, ?_⟩
  · intro h3
    rw [decode_distance, if_neg (by omega)]
  · intro h4 h29
    rw [decode_distance, if_pos (by omega)]
    cases hrb : read_bits ((D - 2) / 2) s with
    | none => rfl
    | some p =>
      have hlt : D - 4 < EXTRA_DIST_ADDEND.length := by
        simp only [EXTRA_DIST_ADDEND, List.length]
        omega
      rw [List.getElem?_eq_getElem hlt]
      simp only [List.getD_eq_getElem?_getD, List.getElem?_eq_getElem hlt, Option.getD_some]
  · intro h30
    rw [decode_distance, if_pos (by omega)]
    cases hrb : read_bits ((D - 2) / 2) s with
    | none => rfl
    | some p =>
      have hnone : EXTRA_DIST_ADDEND[D - 4]? = none := by
        apply List.getElem?_eq_none
        simp only [EXTRA_DIST_ADDEND, List.length]
        omega
      rw [hnone]

/-- Witness for C4 (amended) at D = 5 over a stream starting with a 1 bit:
one extra bit is read and the value passed is 1 + 6 = 7 (RFC distance 8
minus one). -/
theorem decode_distance_spec_witness :
    decode_distance 5 ⟨[], 1, 1⟩ =
      (match read_bits ((5 - 2) / 2) (⟨[], 1, 1⟩ : GzBitReader) with
       | none => .err
       | some p => .ok (p.1 + EXTRA_DIST_ADDEND.getD (5 - 4) 0, p.2)) :=
  (decode_distance_spec 5 ⟨[], 1, 1⟩).2.1 (by norm_num) (by norm_num)

/-! ## Claim C6 -/

/-- Claim C6: in the symbol loop, a literal/length symbol 257 ≤ S ≤ 264
yields length S - 254 with no extra bits; 265 ≤ S ≤ 284 reads
(S - 261) >> 2 extra bits and yields EXTRA_LENGTH_ADDEND[S - 265] plus the
extra-bits value, with the addend table [11, 13, ..., 227]; S = 285 yields
258 with no extra bits; and a symbol S ≥ 286 makes the decode fail. -/
theorem decode_length_spec (S : Nat) (s : GzBitReader) :
    (257 ≤ S → S ≤ 264 → decode_length S s = .ok (S - 254, s)) ∧
    (265 ≤ S → S ≤ 284 → decode_length S s =
      (match read_bits ((S - 261) / 4) s with
       | none => .err
       | some p => .ok (p.1 + EXTRA_LENGTH_ADDEND.getD (S - 265) 0, p.2))) ∧
    (decode_length 285 s = .ok (258, s)) ∧
    (EXTRA_LENGTH_ADDEND =
      [11, 13, 15, 17, 19, 23, 27, 31, 35, 43, 51, 59, 67, 83, 99, 115, 131, 163, 195, 227]) ∧
    (∀ fuel lit distT s2 out, 286 ≤ S → HuffmanNode.read lit s = (.ok S, s2) →
      inflate_huffman_codes (fuel + 1) lit distT s out = .err) := by
  refine ⟨?_, ?_, by rw [decode_length]; norm_num, rfl, ?_⟩
  · intro h257 h264
    rw [decode_length, if_pos (by omega)]
    rw [u32WrapSub_of_le (by omega) (by rw [show U32 = 4294967296 by norm_num [U32]]; omega)]
  · intro h265 h284
    rw [decode_length, if_neg (by omega), if_pos (by omega)]
    have hidx : (u32WrapSub S 266 + 1) % U32 = S - 265 := by
      have h32 : U32 = 4294967296 := by norm_num [U32]
      unfold u32WrapSub
      rw [h32]
      omega
    rw [hidx]
    cases hrb : read_bits ((S - 261) / 4) s with
    | none => rfl
    | some p =>
      have hlt : S - 265 < EXTRA_LENGTH_ADDEND.length := by
        simp only [EXTRA_LENGTH_ADDEND, List.length]
        omega
      rw [List.getElem?_eq_getElem hlt]
      simp only [List.getD_eq_getElem?_getD, List.getElem?_eq_getElem hlt, Option.getD_some]
  · intro fuel lit distT s2 out h286 hread
    rw [inflate_huffman_codes, hread]
    simp only [ge_iff_le, h286, if_pos]

/-- Witness for C6 at S = 265 over a stream starting with a 1 bit: one
extra bit is read and the length is 1 + 11 = 12. -/
theorem decode_length_spec_witness :
    decode_length 265 ⟨[], 1, 1⟩ =
      (match read_bits ((265 - 261) / 4) (⟨[], 1, 1⟩ : GzBitReader) with
       | none => .err
       | some p => .ok (p.1 + EXTRA_LENGTH_ADDEND.getD (265 - 265) 0, p.2)) :=
  (decode_length_spec 265 ⟨[], 1, 1⟩).2.1 (by norm_num) (by norm_num)

set_option maxRecDepth 1000000

/-! ## Claim C8 -/

/-- The range list of the canonical-Huffman example (also the source's own
test vector). -/
def huffman_example_ranges : List HuffmanRange :=
  [⟨1, 4⟩, ⟨4, 6⟩, ⟨6, 4⟩, ⟨14, 5⟩, ⟨18, 6⟩, ⟨21, 4⟩, ⟨26, 6⟩]

/-- The code table the construction produces on the example ranges. -/
def huffman_example_table : List TreeNode :=
  [⟨4, 0, 0⟩, ⟨4, 1, 1⟩, ⟨6, 44, 2⟩, ⟨6, 45, 3⟩, ⟨6, 46, 4⟩,
   ⟨4, 2, 5⟩, ⟨4, 3, 6⟩, ⟨5, 14, 7⟩, ⟨5, 15, 8⟩, ⟨5, 16, 9⟩,
   ⟨5, 17, 10⟩, ⟨5, 18, 11⟩, ⟨5, 19, 12⟩, ⟨5, 20, 13⟩, ⟨5, 21, 14⟩,
   ⟨6, 47, 15⟩, ⟨6, 48, 16⟩, ⟨6, 49, 17⟩, ⟨6, 50, 18⟩, ⟨4, 4, 19⟩,
   ⟨4, 5, 20⟩, ⟨4, 6, 21⟩, ⟨6, 51, 22⟩, ⟨6, 52, 23⟩, ⟨6, 53, 24⟩,
   ⟨6, 54, 25⟩, ⟨6, 55, 26⟩]

/-- Claim C8: on the ranges [(1,4),(4,6),(6,4),(14,5),(18,6),(21,4),(26,6)]
the canonical construction counts [_,_,_,7,8,12] codes of lengths 4/5/6,
the first codes are 0 (4-bit), 14 (5-bit) and 44 (6-bit), every first code
obeys next_code[L] = (next_code[L-1] + bl_count[L-1]) << 1 from
next_code[1] = 0, and the resulting table has exactly 27 symbols whose
equal-length codes are consecutive and assigned in increasing symbol
order. -/
theorem canonical_huffman_example :
    count_bitlengths huffman_example_ranges 6 = .ok [0, 0, 0, 7, 8, 12] ∧
    compute_first_codes [0, 0, 0, 7, 8, 12] = [0, 0, 0, 0, 14, 44] ∧
    (∀ L, 1 ≤ L → L < 6 →
      ([0, 0, 0, 0, 14, 44] : List Nat).getD L 0 =
        (([0, 0, 0, 0, 14, 44] : List Nat).getD (L - 1) 0 +
          ([0, 0, 0, 7, 8, 12] : List Nat).getD (L - 1) 0) <<< 1) ∧
    compute_code_table [0, 0, 0, 0, 14, 44] huffman_example_ranges = .ok huffman_example_table ∧
    huffman_example_table.length = 27 ∧
    huffman_example_table.map TreeNode.label = List.range 27 ∧
    (huffman_example_table.filter fun t => t.len == 4).map TreeNode.bits =
      [0, 1, 2, 3, 4, 5, 6] ∧
    (huffman_example_table.filter fun t => t.len == 5).map TreeNode.bits =
      [14, 15, 16, 17, 18, 19, 20, 21] ∧
    (huffman_example_table.filter fun t => t.len == 6).map TreeNode.bits =
      [44, 45, 46, 47, 48, 49, 50, 51, 52, 53, 54, 55] := by
  refine ⟨by decide, by decide, by decide, by decide, by decide, by decide,
    by decide, by decide, by decide⟩

/-! ## Claim C5 -/

/-- Claim C5: the inflater does NOT guard back-reference distances against
the current output length — decoding the two-byte fixed-Huffman payload
[0x03, 0x02] (final block, type 01, symbol 257 = length 3, distance code 0)
reaches copy_back_pointer 0 3 on the empty output buffer, whose start-index
computation underflows and whose indexing assertion then panics, instead of
the MalformedStream failure the claim requires. -/
theorem inflate_oob_backref_panics :
    copy_back_pointer [] 0 3 = .panic ∧
    inflate ⟨[0x02], 0x03, 1⟩ [] = .panic := by
  refine ⟨by decide, by decide⟩

/-! ## Claim C2 -/

/-- Claim C2 counterexample: the length gate is GZIP_MIN_LEN = 40, not 18 —
an 18-byte input is rejected by the initial check, and a 40-byte input
(which the claim says proceeds to footer and header parsing, where it would
fail cleanly on the bad magic) instead panics on the
`assert!(buffer.len() > GZIP_MIN_LEN)` inside get_uncompressed_len. -/
theorem decompress_length_gate_cex :
    GZIP_MIN_LEN = 40 ∧
    decompress_gz (List.replicate 18 0) = .err ∧
    decompress_gz (List.replicate 39 0) = .err ∧
    decompress_gz (List.replicate 40 0) = .panic := by
  refine ⟨rfl, by decide, by decide, by decide⟩

/-- Claim C2 (amended): the initial length check of decompress_gz rejects
exactly the inputs shorter than 40 bytes (returning failure); an input of
exactly 40 bytes passes the check but panics on get_uncompressed_len's
assertion; inputs of 41 bytes or more pass the check and proceed to the
footer reads and header parsing (decompress_after_check). -/
theorem decompress_length_gate :
    (∀ buffer : List Nat, buffer.length < 40 → decompress_gz buffer = .err) ∧
    (∀ buffer : List Nat, buffer.length = 40 → decompress_gz buffer = .panic) ∧
    (∀ buffer : List Nat, 41 ≤ buffer.length →
      decompress_gz buffer = decompress_after_check buffer) := by
  refine ⟨?_, ?_, ?_⟩
  · intro buffer h
    rw [decompress_gz, if_pos (show buffer.length < GZIP_MIN_LEN from h)]
  · intro buffer h
    rw [decompress_gz, if_neg (show ¬ buffer.length < GZIP_MIN_LEN by
      simp only [GZIP_MIN_LEN]; omega)]
    rw [decompress_after_check]
    have hg : get_uncompressed_len buffer = .panic := by
      rw [get_uncompressed_len, if_neg (by simp only [GZIP_MIN_LEN]; omega)]
    rw [hg]
    rfl
  · intro buffer h
    rw [decompress_gz, if_neg (show ¬ buffer.length < GZIP_MIN_LEN by
      simp only [GZIP_MIN_LEN]; omega)]

/-- Witness for C2 (amended) at lengths 39, 40 and 41. -/
theorem decompress_length_gate_witness :
    decompress_gz (List.replicate 39 1) = .err ∧
    decompress_gz (List.replicate 40 1) = .panic ∧
    decompress_gz (List.replicate 41 1) = decompress_after_check (List.replicate 41 1) :=
  ⟨decompress_length_gate.1 _ (by decide),
   decompress_length_gate.2.1 _ (by decide),
   decompress_length_gate.2.2 _ (by decide)⟩

/-! ## Claim C1 -/

/-- A 41-byte input: valid empty-flag header, 23 payload bytes 0x06 (whose
first block has the reserved BTYPE 11, so inflate fails), and an all-zero
footer (CRC field 0 = the CRC-32 of the empty byte sequence). -/
def c1_bad_input : List Nat :=
  [0x1f, 0x8b, 0x08, 0x00, 0, 0, 0, 0, 0, 0] ++ List.replicate 23 6 ++ List.replicate 8 0

/-- Claim C1 counterexample: on c1_bad_input the inflate stage fails (the
constructed bit reader is exactly the one decompress builds over the
payload region), yet decompress_gz returns success carrying an (empty)
buffer, because the cleared buffer's CRC-32 (0) matches the all-zero
footer. -/
theorem decompress_not_atomic_cex :
    inflate ⟨List.replicate 22 6, 6, 1⟩ [] = .err ∧
    GzBitReader.new ((c1_bad_input.take (c1_bad_input.length - GZIP_FOOTER_LEN)).drop 10) =
      some ⟨List.replicate 22 6, 6, 1⟩ ∧
    decompress_gz c1_bad_input = .ok [] := by
  refine ⟨by decide, by decide, by decide⟩

/-- Claim C1 (amended): decode is not atomic. When the header parses but
the inner stage fails — the bit-reader construction fails, or inflate
fails — the output buffer is discarded (cleared to empty), and
decompress_gz then returns success with that empty buffer exactly when the
footer CRC field equals the CRC-32 of the empty sequence (0), and failure
otherwise. No partial output is ever exposed, but inner failures are
swallowed whenever the footer CRC is 0. -/
theorem decompress_swallows_inflate_err (buffer : List Nat) (header : GZHeader)
    (hlen : 41 ≤ buffer.length)
    (hhdr : parse_header buffer = some header)
    (hfail :
      GzBitReader.new
        ((buffer.take (buffer.length - GZIP_FOOTER_LEN)).drop header.header_len) = none ∨
      ∃ r, GzBitReader.new
          ((buffer.take (buffer.length - GZIP_FOOTER_LEN)).drop header.header_len) = some r ∧
        inflate r [] = .err) :
    decompress_gz buffer =
      (get_crc buffer).bind fun crc => if check_crc [] crc then .ok [] else .err := by
  have hraw : decompress_raw
      ((buffer.take (buffer.length - GZIP_FOOTER_LEN)).drop header.header_len) [] = .ok [] := by
    rcases hfail with hnone | ⟨r, hr, hinf⟩
    · simp only [decompress_raw, hnone]
    · simp only [decompress_raw, hr, hinf]
  have hgu : ∃ v, get_uncompressed_len buffer = .ok v := by
    rw [get_uncompressed_len, if_pos (by simp only [GZIP_MIN_LEN]; omega)]
    rw [get_wide_u32, if_pos (by simp only [GZIP_FILESIZE_OFFSET]; omega)]
    exact ⟨_, rfl⟩
  have hgc : ∃ c, get_crc buffer = .ok c := by
    rw [get_crc, if_pos (by simp only [GZIP_MIN_LEN]; omega)]
    rw [get_wide_u32, if_pos (by simp only [GZIP_CRC_OFFSET]; omega)]
    exact ⟨_, rfl⟩
  obtain ⟨v, hv⟩ := hgu
  obtain ⟨c, hc⟩ := hgc
  rw [decompress_gz, if_neg (show ¬ buffer.length < GZIP_MIN_LEN by
    simp only [GZIP_MIN_LEN]; omega)]
  simp only [decompress_after_check, hv, hc, hhdr, hraw, RRes.bind]

/-- Witness for C1 (amended) at c1_bad_input: its header parses with
header_len 10, inflate fails on its payload, and decompress reduces to the
CRC comparison against the empty buffer. -/
theorem decompress_swallows_inflate_err_witness :
    decompress_gz c1_bad_input =
      (get_crc c1_bad_input).bind fun crc => if check_crc [] crc then .ok [] else .err :=
  decompress_swallows_inflate_err c1_bad_input
    ⟨10, 8, ⟨false, false, false, false, false⟩, 0, 0, 0, none, none, none, none⟩
    (by decide) (by decide)
    (Or.inr ⟨⟨List.replicate 22 6, 6, 1⟩, by decide, by decide⟩)

/-- Witness for C8's recurrence conjunct at L = 4:
next_code[5-bit] = (next_code[4-bit] + bl_count[4-bit]) << 1 = (0 + 7) << 1 = 14. -/
theorem canonical_huffman_example_witness :
    ([0, 0, 0, 0, 14, 44] : List Nat).getD 4 0 =
      (([0, 0, 0, 0, 14, 44] : List Nat).getD (4 - 1) 0 +
        ([0, 0, 0, 7, 8, 12] : List Nat).getD (4 - 1) 0) <<< 1 :=
  canonical_huffman_example.2.2.1 4 (by norm_num) (by norm_num)
